import Mathlib

/-!
Verification of the path-normalization and directory-traversal core of the
sftp-cli repository (src/sftp_path.c, src/sftp_list.c) against its
natural-language specification.

Strings are modelled as `List Char` holding the bytes of a NUL-terminated C
string up to (and excluding) its terminator; path bytes are assumed NUL-free.
Machine allocations are modelled as pure lists.  The source's
`path_str_slice` writes its terminator at index `stop - 1` of the freshly
allocated buffer, which is out of bounds whenever `start > 0`; the model
performs the write only when it is in bounds (`List.set` is a no-op out of
range) and reads the resulting buffer back as a C string, i.e. up to the
first NUL, treating the byte just past the allocation as zero.  Fallible or
undefined-behaviour paths (NULL returns that are later dereferenced) are
modelled with `Option`, `none` marking them.
-/

namespace SftpCli

/-- Modelled from the spec: the separator byte, `PATH_SEPARATOR` of the
missing header sftp_path.h ("Separator is '/'"). -/
def PATH_SEPARATOR : Char := '/'

/-- The NUL byte used as the C-string terminator. -/
def chNul : Char := Char.ofNat 0

/-- Modelled from the spec: `path_buffer_max`, the `BUF_SIZE_FS_PATH`
constant of the missing header sftp_path.h (maximum bytes per joined
path); the exact value is implementation-defined, 4096 is used here. -/
def BUF_SIZE_FS_PATH : Nat := 4096

/-- Read a buffer back as a C string: the bytes before the first NUL.
Memory just past an allocation is treated as zero-filled, concretizing the
out-of-bounds terminator write of `path_str_slice` (flagged in the spec's
design notes). -/
def cstr (buf : List Char) : List Char := buf.takeWhile (fun c => c != chNul)

/-- `path_str_slice` from src/sftp_path.c.  Allocates `stop - start` bytes,
copies `s[start..stop-1]` into them, then writes the terminator at index
`stop - 1` of the new buffer (the source bug: the terminator index is
relative to the source string, not the slice).  Returns `none` for the
NULL return when the requested length is below 1.  The `size_t`
subtraction `stop - start` is modelled with truncated `Nat` subtraction;
in the source `stop < start` wraps around and attempts a huge allocation
(undefined), here it also yields `none`. -/
def path_str_slice (s : List Char) (start stop : Nat) : Option (List Char) :=
  let length := stop - start
  if length < 1 then none
  else
    some ((((List.range length).map (fun i => s.getD (start + i) chNul)).set
      (stop - 1) chNul))

/-- The common tail of `path_remove_prefix`: count the leading separators of
the cleaned buffer and slice them off, keeping one when the string was
absolute (`is_root = 1`).  The returned buffer is read back as a C string. -/
def prefixCore (cleanedBuf : List Char) (is_root : Nat) : Option (List Char) :=
  let num := (cleanedBuf.takeWhile (fun c => c == PATH_SEPARATOR)).length
  if 0 < num then
    Option.map cstr ( path_str_slice cleanedBuf (num - is_root) cleanedBuf.length)
  else some cleanedBuf

/-- `path_remove_prefix` from src/sftp_path.c (the spec's `strip_leading`):
strings of length below 2 are returned unchanged; a leading "./" is sliced
off (when that slice is NULL — input exactly "./" — the function returns
NULL, modelled `none`); then any run of leading separators is sliced off,
keeping one for an absolute string. -/
def path_remove_prefix (s : List Char) : Option (List Char) :=
  if s.length < 2 then some s
  else if s.getD 0 chNul = '.' ∧ s.getD 1 chNul = PATH_SEPARATOR then
    match path_str_slice s 2 s.length with
    | none => none
    | some buf => prefixCore buf 0
  else prefixCore s 1

/-- `path_remove_suffix` from src/sftp_path.c (the spec's `strip_trailing`):
strings of length below 2 are returned unchanged.  The scanning loop of the
source increments its index instead of decrementing it, so after seeing a
trailing separator it reads the NUL terminator and stops: the counted run
is 1 when the last byte is a separator and 0 otherwise, never more. -/
def path_remove_suffix (s : List Char) : Option (List Char) :=
  if s.length < 2 then some s
  else
    let num := if s.getLastD chNul = PATH_SEPARATOR then 1 else 0
    if 0 < num then
      Option.map cstr ( path_str_slice s 0 (s.length - num + 1))
    else some s

/-- One part of `path_join`'s loop body: `path_remove_prefix`, a fresh
`strlen`, then `path_remove_suffix` (src/sftp_path.c lines 127-129). -/
def path_clean (p : List Char) : Option (List Char) :=
  match path_remove_prefix p with
  | none => none
  | some q => path_remove_suffix q

/-- The loop of `path_join`: while parts remain and the accumulated length
is below `BUF_SIZE_FS_PATH`, clean the next part, append it to the buffer
and add one separator after every part but the last. -/
def path_joinAux : List (List Char) → Nat → List Char → Option (List Char)
  | [], _, buf => some buf
  | p :: rest, plen, buf =>
    if plen < BUF_SIZE_FS_PATH then
      match path_clean p with
      | none => none
      | some c =>
        match rest with
        | [] => some (buf ++ c)
        | _ :: _ => path_joinAux rest (plen + c.length + 1) (buf ++ c ++ [PATH_SEPARATOR])
    else some buf

/-- `path_join` from src/sftp_path.c, with its variadic argument list
modelled as a list of parts. -/
def path_join (parts : List (List Char)) : Option (List Char) :=
  path_joinAux parts 0 []

/-- Modelled from the spec: the `FS_JOIN_PATH` macro of the missing header
sftp_path.h, which applies `path_join` to its two arguments. -/
def FS_JOIN_PATH (a b : List Char) : Option (List Char) :=
  path_join [a, b]

/-- The loop of `path_split`: bytes accumulate in a component buffer, and
every separator (and the end of the string) pushes a copy of the buffer onto
the list.  The fixed `BUF_SIZE_FS_NAME` component buffer of the source is
modelled as unbounded (components longer than the buffer overflow it in the
source). -/
def path_splitAux : List Char → List Char → List (List Char)
  | [], buf => [buf]
  | c :: rest, buf =>
    if c = PATH_SEPARATOR then buf :: path_splitAux rest []
    else path_splitAux rest (buf ++ [c])

/-- `path_split` from src/sftp_path.c: split a path string into the list of
runs between separators.  The final push after the loop always happens, so
the result is never empty. -/
def path_split (s : List Char) : List (List Char) :=
  path_splitAux s []

/-- `path_replace_grandparent` from src/sftp_path.c.  For strings shorter
than 3 bytes the source returns `false`, i.e. a NULL pointer (`none` here,
the mis-typed sentinel flagged in the spec's design notes).  Otherwise it
scans for the first separator; if there is none the input is returned
unchanged, else everything after the first separator is sliced off and
joined below the new grandparent. -/
def path_replace_grandparent (s grandparent : List Char) : Option (List Char) :=
  if s.length < 3 then none
  else
    let slash_index := (s.takeWhile (fun c => c != PATH_SEPARATOR)).length
    if slash_index = s.length then some s
    else
      match path_str_slice s (slash_index + 1) s.length with
      | none => none
      | some buf => FS_JOIN_PATH grandparent (cstr buf)

/-- `ListT` from the missing header sftp_list.h, as used by
src/sftp_list.c: a growable array of `allocated` slots of which the first
`length` hold elements.  The valid elements are modelled by the list
`items` (so `length = items.length`), the capacity by `allocated`. -/
structure ListT (α : Type) where
  items : List α
  allocated : Nat
deriving Repr, DecidableEq

/-- `List_new` from src/sftp_list.c: an empty list with `length` reserved
slots. -/
def List_new (α : Type) (length : Nat) : ListT α :=
  { items := [], allocated := length }

/-- `x & ~(size_t)3`: clear the two low bits, i.e. round down to a multiple
of 4. -/
def round4 (m : Nat) : Nat := m / 4 * 4

/-- `List_re_alloc` from src/sftp_list.c: grow the capacity to
`(n + n/8 + 6) & ~3` when the requested size exceeds it, otherwise leave
the list untouched.  Allocation failure is not modelled; `size_t`
wrap-around of the growth formula is unreachable for any feasible list. -/
def List_re_alloc {α : Type} (self : ListT α) (new_size : Nat) : ListT α :=
  if new_size ≤ self.allocated then self
  else { self with allocated := round4 (new_size + new_size / 8 + 6) }

/-- `List_push` from src/sftp_list.c: ensure room for one more element,
store it at index `length` and increment `length`. -/
def List_push {α : Type} (self : ListT α) (attr : α) : ListT α :=
  let s := List_re_alloc self (self.items.length + 1)
  { s with items := s.items ++ [attr] }

/-- `List_pop` from src/sftp_list.c: return the last element and decrement
`length`, or NULL (`none`) when the list is empty. -/
def List_pop {α : Type} (self : ListT α) : Option α × ListT α :=
  if self.items.isEmpty then (none, self)
  else (self.items.getLast?, { self with items := self.items.dropLast })

/-- N pushes of the value 0 into an initially empty sequence, the scenario
of the spec's sequence-growth property. -/
def List_pushN : Nat → ListT Nat
  | 0 => List_new Nat 0
  | n + 1 => List_push (List_pushN n) 0

/-- `FileTypesT` tag `FS_REG_FILE`. Modelled from the spec: the
enumeration lives in a header missing from src/; the spec's type tags are
{REGULAR_FILE, DIRECTORY, IGNORED}, represented by distinct numbers. -/
def FS_REG_FILE : Nat := 0

/-- `FileTypesT` tag `FS_DIRECTORY`. Modelled from the spec (see
`FS_REG_FILE`). -/
def FS_DIRECTORY : Nat := 1

/-- Remote type code `SSH_FILEXFER_TYPE_REGULAR` of the external libssh
collaborator (protocol value 1). -/
def SSH_FILEXFER_TYPE_REGULAR : Nat := 1

/-- Remote type code `SSH_FILEXFER_TYPE_DIRECTORY` of the external libssh
collaborator (protocol value 2). -/
def SSH_FILEXFER_TYPE_DIRECTORY : Nat := 2

/-- `SSH_FX_OK` status of the external libssh collaborator (value 0). -/
def SSH_FX_OK : Nat := 0

/-- `FileSystemT` from the missing header sftp_path.h, with the fields
`FileSystem_from_path` in src/sftp_path.c initializes.  The source
`malloc`s every path buffer and `strcpy`s only one of
`relative_path`/`absolute_path`; the buffers never written are modelled as
empty (zero-filled) rather than as indeterminate bytes. -/
structure FileSystemT where
  name : List Char
  relative_path : List Char
  absolute_path : List Char
  grandparent_path : List Char
  parent_path : List Char
  type : Nat
deriving Repr, DecidableEq

/-- `FileSystem_from_path` from src/sftp_path.c: store the path under
`absolute_path` when it starts with the separator, else under
`relative_path`, and pop the last component of `path_split path` as the
name. -/
def FileSystem_from_path (path : List Char) (ty : Nat) : FileSystemT :=
  { name := ( path_split path).getLastD []
    relative_path := if path.getD 0 chNul = PATH_SEPARATOR then [] else path
    absolute_path := if path.getD 0 chNul = PATH_SEPARATOR then path else []
    grandparent_path := []
    parent_path := []
    type := ty }

/-- `FileSystem_copy` from src/sftp_path.c: copy `name` and
`relative_path` from `self` into `dest`, leaving the other fields of
`dest` untouched. -/
def FileSystem_copy (self dest : FileSystemT) : FileSystemT :=
  { dest with name := self.name, relative_path := self.relative_path }

/-- `FileSystem_list_push` from src/sftp_path.c: grow the list, build a
fresh entry from the pushed entry's `relative_path` and `type`, then
`FileSystem_copy` the pushed entry into it. -/
def FileSystem_list_push (self : ListT FileSystemT) (fs : FileSystemT) : ListT FileSystemT :=
  let s := List_re_alloc self (self.items.length + 1)
  { s with items := s.items ++ [FileSystem_copy fs (FileSystem_from_path fs.relative_path fs.type)] }

/-- The element `FileSystem_list_push` actually stores for an entry built
from `rel` and `ty` (src/sftp_path.c lines 368-369 composed with lines
325-328). -/
def storedElem (rel : List Char) (ty : Nat) : FileSystemT :=
  let fs := FileSystem_from_path rel ty
  FileSystem_copy fs (FileSystem_from_path fs.relative_path fs.type)

/-- An attributes record of the external SFTP collaborator: the name and
remote type code `sftp_readdir` reports for one directory entry. -/
structure sftp_attributes where
  name : List Char
  type : Nat
deriving Repr, DecidableEq

/-- The element stored for attributes `a` read below directory `path`:
`FS_JOIN_PATH path a.name` with the mapped `FileTypesT` tag. -/
def storedFS (path : List Char) (a : sftp_attributes) : FileSystemT :=
  storedElem ((FS_JOIN_PATH path a.name).getD [])
    (if a.type = SSH_FILEXFER_TYPE_REGULAR then FS_REG_FILE else FS_DIRECTORY)

/-- The `sftp_readdir` loop of `path_read_remote_dir` (src/sftp_path.c
lines 354-371): for every attributes record, join its name below `path`,
map the remote type code (REGULAR and DIRECTORY are kept, every other code
is skipped after the join), and push the entry.  `none` models the
undefined behaviour of joining with a NULL path. -/
def read_dir_loop (path : List Char) :
    List sftp_attributes → ListT FileSystemT → Option (ListT FileSystemT)
  | [], acc => some acc
  | a :: rest, acc =>
    match FS_JOIN_PATH path a.name with
    | none => none
    | some rel =>
      if a.type = SSH_FILEXFER_TYPE_REGULAR then
        read_dir_loop path rest (FileSystem_list_push acc (FileSystem_from_path rel FS_REG_FILE))
      else if a.type = SSH_FILEXFER_TYPE_DIRECTORY then
        read_dir_loop path rest (FileSystem_list_push acc (FileSystem_from_path rel FS_DIRECTORY))
      else
        read_dir_loop path rest acc

/-- `path_read_remote_dir` from src/sftp_path.c.  The external SFTP
session is modelled by its observable behaviour: whether `sftp_opendir`
succeeds (`openOk`), the finite stream of records `sftp_readdir` emits
(`entries`), and the status `sftp_closedir` returns (`closeStatus`).  On
open failure the call returns NULL; after the loop, a close status other
than `SSH_FX_OK` also makes it return NULL (src/sftp_path.c lines
373-378). -/
def path_read_remote_dir (openOk : Bool) (path : List Char)
    (entries : List sftp_attributes) (closeStatus : Nat) : Option (ListT FileSystemT) :=
  if openOk = false then none
  else
    match read_dir_loop path entries (List_new FileSystemT 1) with
    | none => none
    | some l => if closeStatus ≠ SSH_FX_OK then none else some l

/-- `stat` of the local-filesystem collaborator: the existing paths are
modelled as a list of byte strings, `stat` succeeds exactly on members. -/
def fs_stat (st : List (List Char)) (p : List Char) : Bool :=
  decide (p ∈ st)

/-- `mkdir` of the local-filesystem collaborator.  It fails on the empty
path (POSIX ENOENT), on an existing path (EEXIST) and on paths in
`blocked`, an arbitrary set standing for external failure causes
(permissions, a file in the way); otherwise the directory is added.  The
fixed creation mode `FS_CREATE_PERM` does not affect existence and is not
tracked. -/
def fs_mkdir (blocked : List (List Char)) (st : List (List Char)) (p : List Char) :
    Option (List (List Char)) :=
  if p = [] ∨ p ∈ blocked ∨ p ∈ st then none else some (p :: st)

/-- One iteration body of `path_mkdir_parents`: `stat` the accumulated
path and, when it is absent, `mkdir` it; `none` models the `return 0` on
`mkdir` failure. -/
def mkdirStep (blocked : List (List Char)) (p : List Char) (st : List (List Char)) :
    Option (List (List Char)) :=
  if fs_stat st p then some st
  else fs_mkdir blocked st p

/-- The tail of `path_mkdir_parents`' loop (iterations with `i > 0`): join
the next component onto the accumulated buffer, then stat/mkdir it.
Returns the source function's result together with the final filesystem
state; `none` models the undefined behaviour of a failed join. -/
def mkdirGo (blocked : List (List Char)) :
    List (List Char) → List Char → List (List Char) → Option (Bool × List (List Char))
  | [], _, st => some (true, st)
  | c :: rest, buf, st =>
    match FS_JOIN_PATH buf c with
    | none => none
    | some buf' =>
      match mkdirStep blocked buf' st with
      | none => some (false, st)
      | some st' => mkdirGo blocked rest buf' st'

/-- `path_mkdir_parents` from src/sftp_path.c (the spec's
`ensure_parents`): split the path, take the first component as the initial
buffer (`List_get(path_list, 0)`, modelled from the spec's `get`
operation for the missing list header), stat/mkdir it, then extend the
buffer component by component with `FS_JOIN_PATH`, stat/mkdir-ing each
accumulated path.  Returns 1 (`true`) only if the loop completes. -/
def path_mkdir_parents (blocked : List (List Char)) (path : List Char)
    (st : List (List Char)) : Option (Bool × List (List Char)) :=
  match path_split path with
  | [] => none
  | c0 :: rest =>
    match mkdirStep blocked c0 st with
    | none => some (false, st)
    | some st' => mkdirGo blocked rest c0 st'

/-- Well-formedness of an accumulated path buffer: nonempty, not the bare
dot component, not starting with a separator or with "./", and not ending
with a separator.  On such buffers `path_clean` is the identity. -/
def wfBuf (b : List Char) : Prop :=
  b ≠ [] ∧ b ≠ [ '.'] ∧ b.getD 0 chNul ≠ PATH_SEPARATOR ∧
    ¬(b.getD 0 chNul = '.' ∧ b.getD 1 chNul = PATH_SEPARATOR) ∧
    b.getLastD chNul ≠ PATH_SEPARATOR

instance wfBufDecidable (b : List Char) : Decidable (wfBuf b) := by
  unfold wfBuf; infer_instance

/-- The sequence of paths `path_mkdir_parents` probes after the first
component. -/
def prefixesAux (buf : List Char) : List (List Char) → List (List Char)
  | [] => []
  | c :: rest =>
    let b := buf ++ PATH_SEPARATOR :: c
    b :: prefixesAux b rest

/-- All paths `path_mkdir_parents` probes for a component list: the first
component, then each join-extended accumulation. -/
def prefixList : List (List Char) → List (List Char)
  | [] => []
  | c0 :: rest => c0 :: prefixesAux c0 rest


/-! ### Dynamic-sequence lemmas -/

theorem round4_ge (n : Nat) : n ≤ round4 (n + n / 8 + 6) := by
  unfold round4
  have h1 := Nat.div_add_mod (n + n / 8 + 6) 4
  have h2 : (n + n / 8 + 6) % 4 < 4 := Nat.mod_lt _ (by omega)
  omega

theorem List_re_alloc_items {α : Type} (s : ListT α) (n : Nat) :
    (List_re_alloc s n).items = s.items := by
  unfold List_re_alloc; split <;> rfl

theorem le_List_re_alloc {α : Type} (s : ListT α) (n : Nat) :
    n ≤ (List_re_alloc s n).allocated := by
  unfold List_re_alloc; split
  · assumption
  · exact round4_ge n

theorem List_re_alloc_mono {α : Type} (s : ListT α) (n : Nat) :
    s.allocated ≤ (List_re_alloc s n).allocated := by
  unfold List_re_alloc; split
  · exact Nat.le_refl _
  · show s.allocated ≤ round4 (n + n / 8 + 6)
    have h2 := round4_ge n; omega

theorem List_push_items {α : Type} (s : ListT α) (x : α) :
    (List_push s x).items = s.items ++ [x] := by
  unfold List_push
  simp [List_re_alloc_items]

theorem List_push_alloc {α : Type} (s : ListT α) (x : α) :
    (List_push s x).allocated = (List_re_alloc s (s.items.length + 1)).allocated := rfl

/-- C10: after any successful mutation the length stays within the
capacity, the capacity never decreases (push, pop and re_alloc), and after
N pushes into an initially empty sequence the length is N and the capacity
at least N. -/
theorem C10_list_growth :
    (∀ (s : ListT Nat) (x : Nat), s.items.length ≤ s.allocated →
      ((List_push s x).items.length ≤ (List_push s x).allocated
        ∧ s.allocated ≤ (List_push s x).allocated
        ∧ (List_pop s).2.items.length ≤ (List_pop s).2.allocated
        ∧ s.allocated ≤ (List_pop s).2.allocated))
    ∧ (∀ (s : ListT Nat) (n : Nat), s.allocated ≤ (List_re_alloc s n).allocated)
    ∧ (∀ N : Nat, (List_pushN N).items.length = N ∧ N ≤ (List_pushN N).allocated) := by
  refine ⟨?_, ?_, ?_⟩
  · intro s x hinv
    have hpushlen : (List_push s x).items.length = s.items.length + 1 := by
      simp [List_push_items]
    have hpushalloc : s.items.length + 1 ≤ (List_push s x).allocated := by
      rw [List_push_alloc]; exact le_List_re_alloc s _
    have hmono : s.allocated ≤ (List_push s x).allocated := by
      rw [List_push_alloc]; exact List_re_alloc_mono s _
    refine ⟨by omega, hmono, ?_, ?_⟩
    · unfold List_pop; split
      · simpa using hinv
      · simp only
        have : s.items.dropLast.length ≤ s.items.length := by
          simp [List.length_dropLast]
        omega
    · unfold List_pop; split <;> simp
  · intro s n; exact List_re_alloc_mono s n
  · intro N
    induction N with
    | zero => exact ⟨rfl, Nat.zero_le _⟩
    | succ n ih =>
      have hlen : (List_pushN (n + 1)).items.length = n + 1 := by
        show (List_push (List_pushN n) 0).items.length = n + 1
        simp [List_push_items, ih.1]
      refine ⟨hlen, ?_⟩
      show n + 1 ≤ (List_push (List_pushN n) 0).allocated
      have := le_List_re_alloc (List_pushN n) ((List_pushN n).items.length + 1)
      rw [List_push_alloc]
      omega

/-- C10 witness: the facts above applied to the concrete one-element
sequence of capacity 4 and a pushed value. -/
theorem C10_witness :
    (ListT.mk [ (0 : Nat)] 4).items.length ≤ (ListT.mk [ (0 : Nat)] 4).allocated
    ∧ ((List_push (ListT.mk [ (0 : Nat)] 4) 7).items.length
          ≤ (List_push (ListT.mk [ (0 : Nat)] 4) 7).allocated
        ∧ (ListT.mk [ (0 : Nat)] 4).allocated ≤ (List_push (ListT.mk [ (0 : Nat)] 4) 7).allocated
        ∧ (List_pop (ListT.mk [ (0 : Nat)] 4)).2.items.length
          ≤ (List_pop (ListT.mk [ (0 : Nat)] 4)).2.allocated
        ∧ (ListT.mk [ (0 : Nat)] 4).allocated ≤ (List_pop (ListT.mk [ (0 : Nat)] 4)).2.allocated) :=
  ⟨by decide, C10_list_growth.1 (ListT.mk [ (0 : Nat)] 4) 7 (by decide)⟩

/-! ### Path-lexicon bug evaluations -/

/-- C3: evaluation of the source's `path_str_slice` at the failing input
`s = "ab", start = 0, stop = 2`.  The claim demands a NUL-terminated copy
of `s[0:2]` = "ab"; the code writes its terminator at index `stop - 1` of
the fresh buffer and returns the C string "a" (and for `start > 0` the
write lands past the allocation). -/
theorem C3_slice_bug :
    Option.map cstr ( path_str_slice ( "ab".toList) 0 2) = some ( "a".toList)
    ∧ "a".toList ≠ "ab".toList := by decide

/-- C4: evaluation of the source's `path_remove_suffix` at the failing
input "this////" (the example of its own doc comment).  The incrementing
scan counts at most one trailing separator, so only one is removed; the
claim (and the doc comment) demand "this". -/
theorem C4_suffix_bug :
    path_remove_suffix ( "this////".toList) = some ( "this///".toList)
    ∧ "this///".toList ≠ "this".toList := by decide

/-- C7: neither normalizer is idempotent in the source.  `strip_leading`
maps "/ab" to "/a" (the slice terminator lands on the last byte) and then
"/a" to "/", and `strip_trailing` maps "a//" to "a/" and then "a/" to
"a". -/
theorem C7_not_idempotent :
    ( path_remove_prefix ( "/ab".toList) = some ( "/a".toList)
      ∧ path_remove_prefix ( "/a".toList) = some ( "/".toList))
    ∧ ( path_remove_suffix ( "a//".toList) = some ( "a/".toList)
      ∧ path_remove_suffix ( "a/".toList) = some ( "a".toList)) := by decide

/-- C8: evaluation of `path_replace_grandparent` at the failing inputs.
For the 2-byte input "ab" the source returns `false`, i.e. NULL, instead
of the input; for "/old/x/y" it cuts at the first separator (index 0), so
only the empty leading component is replaced and the result is
"new/old/x/y" instead of the claimed "new/x/y". -/
theorem C8_replace_grandparent_bug :
    path_replace_grandparent ( "ab".toList) ( "new".toList) = none
    ∧ path_replace_grandparent ( "/old/x/y".toList) ( "new".toList)
      = some ( "new/old/x/y".toList) := by decide

/-! ### Split -/

theorem modifyHead_append_nil (l : List (List Char)) :
    l.modifyHead (fun t => [] ++ t) = l := by
  cases l <;> simp

theorem modifyHead_fun_id (l : List (List Char)) :
    l.modifyHead (fun t => t) = l := by
  cases l <;> rfl

theorem path_splitAux_eq (s : List Char) :
    ∀ buf : List Char,
    path_splitAux s buf = (s.splitOn PATH_SEPARATOR).modifyHead (fun t => buf ++ t) := by
  induction s with
  | nil =>
    intro buf
    simp [ path_splitAux, List.splitOn]
  | cons c rest ih =>
    intro buf
    by_cases h : c = PATH_SEPARATOR
    · subst h
      simp [ path_splitAux, List.splitOn, List.splitOnP_cons, ih, modifyHead_append_nil,
        modifyHead_fun_id]
    · have hbeq : (c == PATH_SEPARATOR) = false := by simpa using h
      simp only [ path_splitAux, if_neg h, List.splitOn, List.splitOnP_cons, hbeq,
        Bool.false_eq_true, if_false, List.modifyHead_modifyHead]
      rw [ih (buf ++ [c])]
      congr 1
      funext t
      simp

theorem path_split_eq_splitOn (s : List Char) :
    path_split s = s.splitOn PATH_SEPARATOR := by
  rw [ path_split, path_splitAux_eq s []]
  exact modifyHead_append_nil _

/-- C6 amended: `path_split` cuts its input at every separator, i.e. it is
exactly `List.splitOn '/'`: runs of adjacent separators yield empty
interior components (they are not collapsed), a trailing separator yields
a trailing empty component, the first component is empty iff the path is
absolute or empty, and `path_split "" = [""]`, never `[]`.  In particular
`path_split "/a//b/c/" = ["", "a", "", "b", "c", ""]`. -/
theorem C6_split_eq :
    (∀ s : List Char, path_split s = s.splitOn PATH_SEPARATOR)
    ∧ path_split ( "/a//b/c/".toList) = [ [], "a".toList, [], "b".toList, "c".toList, []]
    ∧ path_split [] = [ []] :=
  ⟨path_split_eq_splitOn, by decide, by decide⟩

/-- C6 counterexample: the claim's collapsed value for
`split("/a//b/c/")` and its empty value for `split("")` are both wrong on
the code. -/
theorem C6_cex :
    path_split ( "/a//b/c/".toList) ≠ [ [], "a".toList, "b".toList, "c".toList]
    ∧ path_split [] ≠ [] := by decide

/-! ### Join -/

theorem intercalate_nil_parts (sep : List Char) :
    List.intercalate sep ([] : List (List Char)) = [] := rfl

theorem intercalate_single (sep x : List Char) :
    List.intercalate sep [x] = x := by
  simp [List.intercalate]

theorem intercalate_cons2 (sep x y : List Char) (zs : List (List Char)) :
    List.intercalate sep (x :: y :: zs) = x ++ (sep ++ List.intercalate sep (y :: zs)) := by
  simp [List.intercalate, List.intersperse_cons_cons, List.flatten_cons, List.append_assoc]

theorem path_joinAux_spec :
    ∀ (ps : List (List Char)) (plen : Nat) (buf : List Char),
    (∀ p ∈ ps, (path_clean p).isSome) →
    plen + (ps.map (fun p => ((path_clean p).getD []).length + 1)).sum ≤ BUF_SIZE_FS_PATH →
    path_joinAux ps plen buf
      = some (buf ++ List.intercalate [ PATH_SEPARATOR]
          (ps.map (fun p => (path_clean p).getD []))) := by
  intro ps
  induction ps with
  | nil =>
    intro plen buf _ _
    simp [ path_joinAux, intercalate_nil_parts]
  | cons p rest ih =>
    intro plen buf hall hlen
    obtain ⟨c, hc⟩ := Option.isSome_iff_exists.mp (hall p (by simp))
    have hsum : plen + (((path_clean p).getD []).length + 1)
        + (rest.map (fun q => ((path_clean q).getD []).length + 1)).sum ≤ BUF_SIZE_FS_PATH := by
      simpa [Nat.add_assoc] using hlen
    have hguard : plen < BUF_SIZE_FS_PATH := by omega
    cases rest with
    | nil =>
      simp [ path_joinAux, hguard, hc, intercalate_single]
    | cons q qs =>
      have hrec := ih (plen + c.length + 1) (buf ++ c ++ [ PATH_SEPARATOR])
        (fun r hr => hall r (by simp [hr]))
        (by
          have hcg : ((path_clean p).getD []).length = c.length := by simp [hc]
          simp only [List.map_cons, List.sum_cons] at hsum ⊢
          omega)
      conv_lhs => rw [ path_joinAux]
      rw [if_pos hguard, hc]
      show path_joinAux (q :: qs) (plen + c.length + 1) (buf ++ c ++ [ PATH_SEPARATOR])
        = some (buf ++ List.intercalate [ PATH_SEPARATOR]
            (List.map (fun r => (path_clean r).getD []) (p :: q :: qs)))
      rw [hrec]
      simp [intercalate_cons2, hc, List.append_assoc]

/-- C5 amended: `path_join` applies the source's `strip_leading` and then
`strip_trailing` to every part (the first and last included) and appends a
single separator after every part but the last, so that — as long as every
part cleans successfully and the cleaned parts fit in the path buffer —
the result is the '/'-intercalation of the cleaned parts.  Because
cleaning keeps the single leading '/' of an absolute part, a later
absolute part doubles the separator, and because of the slice terminator
bug a part that is rewritten loses its last byte:
`join("/root/", "sub/", "/leaf") = "/root/sub//lea"` and
`join("./a//", "/b/", "c") = "a///b/c"` (the second trace reads past a
slice allocation in the source; adjacent memory is modelled as
zero-filled). -/
theorem C5_join :
    (∀ ps : List (List Char),
      (∀ p ∈ ps, (path_clean p).isSome) →
      (ps.map (fun p => ((path_clean p).getD []).length + 1)).sum ≤ BUF_SIZE_FS_PATH →
      path_join ps = some (List.intercalate [ PATH_SEPARATOR]
        (ps.map (fun p => (path_clean p).getD []))))
    ∧ path_join [ "/root/".toList, "sub/".toList, "/leaf".toList]
      = some ( "/root/sub//lea".toList)
    ∧ path_join [ "./a//".toList, "/b/".toList, "c".toList]
      = some ( "a///b/c".toList) := by
  refine ⟨?_, by decide, by decide⟩
  intro ps h1 h2
  exact path_joinAux_spec ps 0 [] h1 (by simpa using h2)

/-- C5 witness: the general part of `C5_join` applied to the two-part
list ["x", "y"]. -/
theorem C5_witness :
    (∀ p ∈ [ "x".toList, "y".toList], (path_clean p).isSome)
    ∧ path_join [ "x".toList, "y".toList]
      = some (List.intercalate [ PATH_SEPARATOR]
          ([ "x".toList, "y".toList].map (fun p => (path_clean p).getD []))) :=
  ⟨by decide, C5_join.1 [ "x".toList, "y".toList] (by decide) (by decide)⟩

/-- C5 counterexample: on the spec's own second example the code does not
produce "/root/sub/leaf". -/
theorem C5_cex :
    path_join [ "/root/".toList, "sub/".toList, "/leaf".toList]
      ≠ some ( "/root/sub/leaf".toList) := by decide

/-! ### Remote directory reader -/

theorem FileSystem_from_path_type (path : List Char) (ty : Nat) :
    (FileSystem_from_path path ty).type = ty := rfl

theorem FileSystem_list_push_items (self : ListT FileSystemT) (fs : FileSystemT) :
    (FileSystem_list_push self fs).items
      = self.items ++ [FileSystem_copy fs (FileSystem_from_path fs.relative_path fs.type)] := by
  unfold FileSystem_list_push
  simp [List_re_alloc_items]

/-- The predicate with which `read_dir_loop` keeps entries: remote code
REGULAR or DIRECTORY. -/
theorem read_dir_loop_items (path : List Char) :
    ∀ (entries : List sftp_attributes) (acc : ListT FileSystemT),
    (∀ a ∈ entries, (FS_JOIN_PATH path a.name).isSome) →
    (read_dir_loop path entries acc).map (fun l => l.items)
      = some (acc.items
          ++ (entries.filter (fun a => a.type == SSH_FILEXFER_TYPE_REGULAR
                || a.type == SSH_FILEXFER_TYPE_DIRECTORY)).map ( storedFS path)) := by
  intro entries
  induction entries with
  | nil =>
    intro acc _
    simp [read_dir_loop]
  | cons a rest ih =>
    intro acc hall
    obtain ⟨rel, hrel⟩ := Option.isSome_iff_exists.mp (hall a (by simp))
    have hrest : ∀ b ∈ rest, (FS_JOIN_PATH path b.name).isSome :=
      fun b hb => hall b (by simp [hb])
    have hgetd : (FS_JOIN_PATH path a.name).getD [] = rel := by simp [hrel]
    by_cases h1 : a.type = SSH_FILEXFER_TYPE_REGULAR
    · rw [show read_dir_loop path (a :: rest) acc
          = read_dir_loop path rest
              (FileSystem_list_push acc (FileSystem_from_path rel FS_REG_FILE)) by
        simp [read_dir_loop, hrel, h1]]
      rw [ih _ hrest]
      simp [List.filter_cons, h1, FileSystem_list_push_items, storedFS, storedElem,
        FileSystem_from_path_type, hgetd]
    · by_cases h2 : a.type = SSH_FILEXFER_TYPE_DIRECTORY
      · rw [show read_dir_loop path (a :: rest) acc
            = read_dir_loop path rest
                (FileSystem_list_push acc (FileSystem_from_path rel FS_DIRECTORY)) by
          simp [read_dir_loop, hrel, h1, h2, SSH_FILEXFER_TYPE_REGULAR,
            SSH_FILEXFER_TYPE_DIRECTORY]]
        rw [ih _ hrest]
        simp [List.filter_cons, h1, h2, FileSystem_list_push_items, storedFS, storedElem,
          FileSystem_from_path_type, hgetd, SSH_FILEXFER_TYPE_REGULAR,
          SSH_FILEXFER_TYPE_DIRECTORY]
      · rw [show read_dir_loop path (a :: rest) acc = read_dir_loop path rest acc by
          simp [read_dir_loop, hrel, h1, h2]]
        rw [ih _ hrest]
        simp [List.filter_cons, h1, h2]

/-- C2: for every finite readdir stream whose joins are defined, the
returned sequence holds exactly the entries with remote code REGULAR
(stored with tag `FS_REG_FILE`) or DIRECTORY (tag `FS_DIRECTORY`), in
readdir order, every other code silently skipped; on the mock stream
[a, b, c] with codes [REG, DIR, 5] below the directory "srv" the result
has exactly the entries named "a" then "b" with tags
[FS_REG_FILE, FS_DIRECTORY]. -/
theorem C2_reader_fidelity :
    (∀ (path : List Char) (entries : List sftp_attributes),
      (∀ a ∈ entries, (FS_JOIN_PATH path a.name).isSome) →
      (path_read_remote_dir true path entries SSH_FX_OK).map (fun l => l.items)
        = some ((entries.filter (fun a => a.type == SSH_FILEXFER_TYPE_REGULAR
              || a.type == SSH_FILEXFER_TYPE_DIRECTORY)).map ( storedFS path)))
    ∧ (path_read_remote_dir true ( "srv".toList)
        [ ⟨ "a".toList, SSH_FILEXFER_TYPE_REGULAR⟩,
          ⟨ "b".toList, SSH_FILEXFER_TYPE_DIRECTORY⟩,
          ⟨ "c".toList, 5⟩] SSH_FX_OK).map
          (fun l => l.items.map (fun e => (e.name, e.type)))
        = some [ ( "a".toList, FS_REG_FILE), ( "b".toList, FS_DIRECTORY)] := by
  refine ⟨?_, by decide⟩
  intro path entries hall
  have hloop := read_dir_loop_items path entries (List_new FileSystemT 1) hall
  unfold path_read_remote_dir
  cases hval : read_dir_loop path entries (List_new FileSystemT 1) with
  | none => rw [hval] at hloop; simp at hloop
  | some l =>
    rw [hval] at hloop
    simp only [Option.map_some', Option.some.injEq] at hloop
    simp [hval, hloop, List_new]

/-- C2 witness: the general part of `C2_reader_fidelity` applied to a
one-entry stream below "srv". -/
theorem C2_witness :
    (∀ a ∈ [ (⟨ "a".toList, 1⟩ : sftp_attributes)],
      (FS_JOIN_PATH ( "srv".toList) a.name).isSome)
    ∧ (path_read_remote_dir true ( "srv".toList)
        [ ⟨ "a".toList, 1⟩] SSH_FX_OK).map (fun l => l.items)
      = some (([ (⟨ "a".toList, 1⟩ : sftp_attributes)].filter
          (fun a => a.type == SSH_FILEXFER_TYPE_REGULAR
            || a.type == SSH_FILEXFER_TYPE_DIRECTORY)).map ( storedFS ( "srv".toList))) :=
  ⟨by decide, C2_reader_fidelity.1 ( "srv".toList) [ ⟨ "a".toList, 1⟩] (by decide)⟩

/-- C1 amended: when `sftp_closedir` reports anything but `SSH_FX_OK`
after a successful open and iteration, `path_read_remote_dir` logs
CLOSE_FAILED and returns NULL — the gathered entries are discarded (and
leaked), not returned. -/
theorem C1_close_failed_discards (path : List Char) (entries : List sftp_attributes)
    (closeStatus : Nat) (h : closeStatus ≠ SSH_FX_OK) :
    path_read_remote_dir true path entries closeStatus = none := by
  unfold path_read_remote_dir
  cases read_dir_loop path entries (List_new FileSystemT 1) <;> simp [h]

/-- C1 witness: a failing close status on a concrete one-entry stream. -/
theorem C1_witness :
    (4 ≠ SSH_FX_OK)
    ∧ path_read_remote_dir true ( "srv".toList) [ ⟨ "a".toList, 1⟩] 4 = none :=
  ⟨by decide, C1_close_failed_discards ( "srv".toList) [ ⟨ "a".toList, 1⟩] 4 (by decide)⟩

/-- C1 counterexample: with one REGULAR entry gathered and a failing
close (status 4), the call returns NULL — no sequence at all — although
the same stream with a successful close yields one gathered entry, so the
entries were collected and then discarded, contradicting the claim that
they are still returned. -/
theorem C1_cex :
    path_read_remote_dir true ( "srv".toList) [ ⟨ "a".toList, 1⟩] 4 = none
    ∧ (path_read_remote_dir true ( "srv".toList) [ ⟨ "a".toList, 1⟩] 0).map
        (fun l => l.items.length) = some 1 := by decide

/-! ### Local path materializer -/

theorem getLastD_append_cons (x : Char) (l2 : List Char) :
    ∀ (l1 : List Char) (d : Char), (l1 ++ x :: l2).getLastD d = l2.getLastD x
  | [], _ => List.getLastD_cons _ _ _
  | a :: t, _ => by
    rw [List.cons_append, List.getLastD_cons]
    exact getLastD_append_cons x l2 t a

theorem comp_props (c : List Char) (h1 : c ≠ []) (h2 : PATH_SEPARATOR ∉ c) :
    c.getD 0 chNul ≠ PATH_SEPARATOR
    ∧ ¬(c.getD 0 chNul = '.' ∧ c.getD 1 chNul = PATH_SEPARATOR)
    ∧ c.getLastD chNul ≠ PATH_SEPARATOR := by
  refine ⟨?_, ?_, ?_⟩
  · cases c with
    | nil => exact absurd rfl h1
    | cons c0 cs =>
      simp only [List.getD_cons_zero]
      exact fun h => h2 (h ▸ List.mem_cons_self _ _)
  · rintro ⟨hdot, hsep1⟩
    cases c with
    | nil => exact h1 rfl
    | cons c0 cs =>
      cases cs with
      | nil =>
        simp only [List.getD_cons_succ, List.getD_nil] at hsep1
        exact absurd hsep1 (by decide)
      | cons c1 cs' =>
        simp only [List.getD_cons_succ, List.getD_cons_zero] at hsep1
        exact h2 (hsep1 ▸ by simp)
  · cases c with
    | nil => exact absurd rfl h1
    | cons c0 cs =>
      rw [List.getLastD_cons]
      intro h
      exact h2 (h ▸ List.getLastD_mem_cons cs c0)

theorem path_clean_keeps (b : List Char)
    (h0 : b.getD 0 chNul ≠ PATH_SEPARATOR)
    (h01 : ¬(b.getD 0 chNul = '.' ∧ b.getD 1 chNul = PATH_SEPARATOR))
    (hlast : b.getLastD chNul ≠ PATH_SEPARATOR) :
    path_clean b = some b := by
  have hpre : path_remove_prefix b = some b := by
    unfold path_remove_prefix
    by_cases hlen : b.length < 2
    · simp [hlen]
    · rw [if_neg hlen, if_neg h01]
      cases b with
      | nil => simp at hlen
      | cons c0 cs =>
        have hc0 : c0 ≠ PATH_SEPARATOR := by simpa using h0
        simp [prefixCore, List.takeWhile_cons, hc0]
  have hsuf : path_remove_suffix b = some b := by
    unfold path_remove_suffix
    by_cases hlen : b.length < 2
    · simp [hlen]
    · rw [if_neg hlen]
      simp only [List.getLastD_eq_getLast?] at hlast
      simp [hlast]
  simp [path_clean, hpre, hsuf]

theorem path_clean_comp (c : List Char) (h1 : c ≠ []) (h2 : PATH_SEPARATOR ∉ c) :
    path_clean c = some c := by
  obtain ⟨p1, p2, p3⟩ := comp_props c h1 h2
  exact path_clean_keeps c p1 p2 p3

theorem wfBuf_comp (c : List Char) (h1 : c ≠ []) (h2 : PATH_SEPARATOR ∉ c)
    (h3 : c ≠ [ '.']) : wfBuf c := by
  obtain ⟨p1, p2, p3⟩ := comp_props c h1 h2
  exact ⟨h1, h3, p1, p2, p3⟩

theorem wfBuf_clean (b : List Char) (h : wfBuf b) : path_clean b = some b :=
  path_clean_keeps b h.2.2.1 h.2.2.2.1 h.2.2.2.2

theorem wfBuf_extend (b c : List Char) (hb : wfBuf b) (hc1 : c ≠ [])
    (hc2 : PATH_SEPARATOR ∉ c) : wfBuf (b ++ PATH_SEPARATOR :: c) := by
  obtain ⟨h1, h2, h3, h4, h5⟩ := hb
  cases b with
  | nil => exact absurd rfl h1
  | cons b0 bs =>
    refine ⟨by simp, ?_, ?_, ?_, ?_⟩
    · intro h
      have hlen := congrArg List.length h
      simp [List.length_append] at hlen
    · simpa using h3
    · rintro ⟨hdot, hsep1⟩
      cases bs with
      | nil =>
        exact h2 (by
          simp only [List.cons_append, List.getD_cons_zero] at hdot
          rw [hdot])
      | cons b1 bs' =>
        simp only [List.cons_append, List.getD_cons_succ, List.getD_cons_zero] at hsep1
        exact h4 ⟨by simpa using hdot, by simp [hsep1]⟩
    · rw [getLastD_append_cons PATH_SEPARATOR c (b0 :: bs) chNul]
      cases c with
      | nil => exact absurd rfl hc1
      | cons c0 cs =>
        rw [List.getLastD_cons]
        intro h
        exact hc2 (h ▸ List.getLastD_mem_cons cs c0)

theorem FS_JOIN_PATH_wf (b c : List Char)
    (hb : path_clean b = some b) (hc : path_clean c = some c)
    (hlen : b.length + 1 < BUF_SIZE_FS_PATH) :
    FS_JOIN_PATH b c = some (b ++ PATH_SEPARATOR :: c) := by
  unfold FS_JOIN_PATH path_join
  conv_lhs => rw [ path_joinAux]
  rw [if_pos (by omega), hb]
  show path_joinAux [c] (0 + b.length + 1) ([] ++ b ++ [ PATH_SEPARATOR]) = _
  conv_lhs => rw [ path_joinAux]
  rw [if_pos (by omega), hc]
  show some (([] ++ b ++ [ PATH_SEPARATOR]) ++ c) = _
  simp

theorem mkdirStep_none (blocked st : List (List Char)) (p : List Char)
    (h : mkdirStep blocked p st = none) : p ∉ st := by
  intro hmem
  unfold mkdirStep fs_stat at h
  simp [hmem] at h

theorem mkdirStep_some (blocked st st' : List (List Char)) (p : List Char)
    (h : mkdirStep blocked p st = some st') :
    (∀ x ∈ st, x ∈ st') ∧ p ∈ st' ∧ (p ∈ st → st' = st) := by
  unfold mkdirStep fs_stat fs_mkdir at h
  by_cases hmem : p ∈ st
  · simp [hmem] at h
    subst h
    exact ⟨fun x hx => hx, hmem, fun _ => rfl⟩
  · simp [hmem] at h
    obtain ⟨-, hcons⟩ := h
    subst hcons
    exact ⟨fun x hx => List.mem_cons_of_mem _ hx, List.mem_cons_self _ _,
      fun hps => absurd hps hmem⟩

theorem prefixesAux_cons (buf c : List Char) (rest : List (List Char)) :
    prefixesAux buf (c :: rest)
      = (buf ++ PATH_SEPARATOR :: c) :: prefixesAux (buf ++ PATH_SEPARATOR :: c) rest := rfl

theorem prefixList_cons (c0 : List Char) (rest : List (List Char)) :
    prefixList (c0 :: rest) = c0 :: prefixesAux c0 rest := rfl

theorem mkdirGo_spec (blocked : List (List Char)) :
    ∀ (comps : List (List Char)) (buf : List Char) (st : List (List Char)),
    (∀ c ∈ comps, c ≠ [] ∧ PATH_SEPARATOR ∉ c) → wfBuf buf →
    buf.length + (comps.map (fun c => c.length + 1)).sum < BUF_SIZE_FS_PATH →
    ∃ res st', mkdirGo blocked comps buf st = some (res, st')
      ∧ (∀ x ∈ st, x ∈ st')
      ∧ (res = true ↔ ∀ q ∈ prefixesAux buf comps, q ∈ st')
      ∧ ((∀ q ∈ prefixesAux buf comps, q ∈ st) → res = true ∧ st' = st) := by
  intro comps
  induction comps with
  | nil =>
    intro buf st _ _ _
    exact ⟨true, st, rfl, fun x hx => hx, by simp [prefixesAux], fun _ => ⟨rfl, rfl⟩⟩
  | cons c rest ih =>
    intro buf st hcs hwf hlen
    have hcprops := hcs c (List.mem_cons_self c rest)
    have hrest : ∀ r ∈ rest, r ≠ [] ∧ PATH_SEPARATOR ∉ r :=
      fun r hr => hcs r (List.mem_cons_of_mem _ hr)
    have hcc : path_clean c = some c := path_clean_comp c hcprops.1 hcprops.2
    have hbc : path_clean buf = some buf := wfBuf_clean buf hwf
    have hsum : buf.length + (c.length + 1)
        + (rest.map (fun r => r.length + 1)).sum < BUF_SIZE_FS_PATH := by
      simp only [List.map_cons, List.sum_cons] at hlen
      omega
    have hjoin : FS_JOIN_PATH buf c = some (buf ++ PATH_SEPARATOR :: c) :=
      FS_JOIN_PATH_wf buf c hbc hcc (by omega)
    have hwf' : wfBuf (buf ++ PATH_SEPARATOR :: c) :=
      wfBuf_extend buf c hwf hcprops.1 hcprops.2
    have hlen' : (buf ++ PATH_SEPARATOR :: c).length
        + (rest.map (fun r => r.length + 1)).sum < BUF_SIZE_FS_PATH := by
      simp only [List.length_append, List.length_cons]
      omega
    rw [show mkdirGo blocked (c :: rest) buf st
        = (match mkdirStep blocked (buf ++ PATH_SEPARATOR :: c) st with
           | none => some (false, st)
           | some st'' => mkdirGo blocked rest (buf ++ PATH_SEPARATOR :: c) st'') by
      conv_lhs => rw [mkdirGo]
      rw [hjoin]]
    cases hstep : mkdirStep blocked (buf ++ PATH_SEPARATOR :: c) st with
    | none =>
      have hnot := mkdirStep_none blocked st _ hstep
      refine ⟨false, st, rfl, fun x hx => hx, iff_of_false (by simp) ?_, ?_⟩
      · intro hall
        exact hnot (hall (buf ++ PATH_SEPARATOR :: c)
          (by rw [prefixesAux_cons]; exact List.mem_cons_self _ _))
      · intro hall
        exact absurd (hall (buf ++ PATH_SEPARATOR :: c)
          (by rw [prefixesAux_cons]; exact List.mem_cons_self _ _)) hnot
    | some st'' =>
      obtain ⟨hmono1, hmem1, hidem1⟩ := mkdirStep_some blocked st st'' _ hstep
      obtain ⟨res, st', heq, hmono2, hiff, hidem2⟩ :=
        ih (buf ++ PATH_SEPARATOR :: c) st'' hrest hwf' hlen'
      refine ⟨res, st', heq, fun x hx => hmono2 x (hmono1 x hx), ?_, ?_⟩
      · constructor
        · intro hres q hq
          rw [prefixesAux_cons] at hq
          rcases List.mem_cons.mp hq with h | h
          · exact h ▸ hmono2 _ hmem1
          · exact (hiff.mp hres) q h
        · intro hall
          exact hiff.mpr (fun q hq => hall q
            (by rw [prefixesAux_cons]; exact List.mem_cons_of_mem _ hq))
      · intro hall
        have hhead : (buf ++ PATH_SEPARATOR :: c) ∈ st :=
          hall _ (by rw [prefixesAux_cons]; exact List.mem_cons_self _ _)
        have hst : st'' = st := hidem1 hhead
        subst hst
        exact hidem2 (fun q hq => hall q
          (by rw [prefixesAux_cons]; exact List.mem_cons_of_mem _ hq))

/-- C9 amended (restricted to relative paths): for a path that is the
'/'-intercalation of nonempty separator-free components whose first
component is not ".", and which fits in the path buffer,
`path_mkdir_parents` probes the accumulated prefixes strictly from
shortest to longest with `stat`, creates each absent one with `mkdir`,
never removes anything from the filesystem, returns OK exactly when every
probed prefix exists after the call, and on a filesystem where every
prefix already exists it returns OK without any mutation.  (For an
absolute path the first component of `path_split` is empty, its stat and
mkdir always fail, and the call reports failure — see the
counterexample.) -/
theorem C9_ensure_parents (blocked st : List (List Char)) (comps : List (List Char))
    (hne : comps ≠ [])
    (hcs : ∀ c ∈ comps, c ≠ [] ∧ PATH_SEPARATOR ∉ c)
    (hhd : comps.getD 0 [] ≠ [ '.'])
    (hlen : (comps.map (fun c => c.length + 1)).sum < BUF_SIZE_FS_PATH) :
    ∃ res st',
      path_mkdir_parents blocked (List.intercalate [ PATH_SEPARATOR] comps) st = some (res, st')
      ∧ (∀ x ∈ st, x ∈ st')
      ∧ (res = true ↔ ∀ q ∈ prefixList comps, q ∈ st')
      ∧ ((∀ q ∈ prefixList comps, q ∈ st) → res = true ∧ st' = st) := by
  have hsplit : path_split (List.intercalate [ PATH_SEPARATOR] comps) = comps := by
    rw [path_split_eq_splitOn]
    exact List.splitOn_intercalate comps PATH_SEPARATOR (fun l hl => (hcs l hl).2) hne
  cases comps with
  | nil => exact absurd rfl hne
  | cons c0 rest =>
    have hc0 := hcs c0 (List.mem_cons_self c0 rest)
    have hrest : ∀ r ∈ rest, r ≠ [] ∧ PATH_SEPARATOR ∉ r :=
      fun r hr => hcs r (List.mem_cons_of_mem _ hr)
    have hwf0 : wfBuf c0 := wfBuf_comp c0 hc0.1 hc0.2 (by simpa using hhd)
    have hlen0 : c0.length + (rest.map (fun r => r.length + 1)).sum < BUF_SIZE_FS_PATH := by
      simp only [List.map_cons, List.sum_cons] at hlen
      omega
    rw [show path_mkdir_parents blocked (List.intercalate [ PATH_SEPARATOR] (c0 :: rest)) st
        = (match mkdirStep blocked c0 st with
           | none => some (false, st)
           | some st'' => mkdirGo blocked rest c0 st'') by
      unfold path_mkdir_parents
      rw [hsplit]]
    cases hstep : mkdirStep blocked c0 st with
    | none =>
      have hnot := mkdirStep_none blocked st _ hstep
      refine ⟨false, st, rfl, fun x hx => hx, iff_of_false (by simp) ?_, ?_⟩
      · intro hall
        exact hnot (hall c0 (by rw [prefixList_cons]; exact List.mem_cons_self _ _))
      · intro hall
        exact absurd (hall c0 (by rw [prefixList_cons]; exact List.mem_cons_self _ _)) hnot
    | some st'' =>
      obtain ⟨hmono1, hmem1, hidem1⟩ := mkdirStep_some blocked st st'' _ hstep
      obtain ⟨res, st', heq, hmono2, hiff, hidem2⟩ :=
        mkdirGo_spec blocked rest c0 st'' hrest hwf0 hlen0
      refine ⟨res, st', heq, fun x hx => hmono2 x (hmono1 x hx), ?_, ?_⟩
      · constructor
        · intro hres q hq
          rw [prefixList_cons] at hq
          rcases List.mem_cons.mp hq with h | h
          · exact h ▸ hmono2 _ hmem1
          · exact (hiff.mp hres) q h
        · intro hall
          exact hiff.mpr (fun q hq => hall q
            (by rw [prefixList_cons]; exact List.mem_cons_of_mem _ hq))
      · intro hall
        have hhead : c0 ∈ st :=
          hall c0 (by rw [prefixList_cons]; exact List.mem_cons_self _ _)
        have hst : st'' = st := hidem1 hhead
        subst hst
        exact hidem2 (fun q hq => hall q
          (by rw [prefixList_cons]; exact List.mem_cons_of_mem _ hq))

/-- C9 witness: the amended theorem applied to the components ["a", "b"]
with no blocked paths and an empty filesystem. -/
theorem C9_witness :
    ∃ res st',
      path_mkdir_parents [] (List.intercalate [ PATH_SEPARATOR] [ "a".toList, "b".toList]) []
        = some (res, st')
      ∧ (∀ x ∈ ([] : List (List Char)), x ∈ st')
      ∧ (res = true ↔ ∀ q ∈ prefixList [ "a".toList, "b".toList], q ∈ st')
      ∧ ((∀ q ∈ prefixList [ "a".toList, "b".toList], q ∈ ([] : List (List Char)))
          → res = true ∧ st' = []) :=
  C9_ensure_parents [] [] [ "a".toList, "b".toList] (by decide) (by decide) (by decide)
    (by decide)

/-- C9 counterexample: on the absolute path "/a", with a filesystem in
which the directories "/" and "/a" both exist, the call reports failure
(the first probed prefix is the empty first component of
`path_split "/a"`, whose stat and mkdir both fail), although every
directory of the path exists — the claim demands OK here. -/
theorem C9_cex :
    path_mkdir_parents [] ( "/a".toList) [ "/".toList, "/a".toList]
      = some (false, [ "/".toList, "/a".toList]) := by decide

end SftpCli
